import Mathlib

/-!
Verification of the probabilistic phenotyping NLP pipeline
(`phenotyping_module.py`, `nlp_pipeline.py`, `db_writer.py`).

The Python code is shallowly embedded: spaCy documents become a record of
tokens and entity spans, Python dicts become association lists with
insert-overwrite semantics, floating-point means become exact rationals,
and raised exceptions become `Except` errors.
-/

set_option autoImplicit false

/-! ## Data model

A spaCy `Doc` is modelled by what the pipeline reads from it: the ordered
token sequence (each token carrying its text, its sentence-start flag and
the text of its containing sentence, i.e. `token.sent.text`) and the list
of recognized entity spans (`doc.ents`, of which only `ent.text` is used).
-/

structure Token where
  text : String
  is_sent_start : Bool
  sentText : String
  deriving DecidableEq, Repr

structure Ent where
  text : String
  deriving DecidableEq, Repr

structure Doc where
  tokens : List Token
  ents : List Ent
  deriving DecidableEq, Repr

/-- Python `str.lower()`, modelled character-wise over the string's
character list (the pipeline only compares ASCII header and lexicon
strings, where this agrees with Python). -/
def strLower (s : String) : String := ⟨s.data.map Char.toLower⟩

/-- Python `str.strip()`: drop whitespace from both ends. -/
def strTrim (s : String) : String :=
  ⟨((s.data.dropWhile Char.isWhitespace).reverse.dropWhile Char.isWhitespace).reverse⟩

/-! ## Python dict operations

Python dicts are modelled as association lists in insertion order.
`dictInsert` is `d[k] = v`: it overwrites the value in place when the key
is present and appends a new binding otherwise.  `List.lookup` models
`d[k]` / `k in d` (keys are unique by construction, so first match is the
binding).
-/

def dictInsert (m : List (String × Int)) (k : String) (v : Int) : List (String × Int) :=
  if (m.lookup k).isSome then
    m.map (fun p => if p.1 == k then (k, v) else p)
  else
    m ++ [(k, v)]

theorem lookup_cons_ite {β : Type} (k a : String) (b : β) (l : List (String × β)) :
    ((a, b) :: l).lookup k = if k = a then some b else l.lookup k := by
  by_cases h : k = a
  · subst h
    simp [List.lookup]
  · have hb : (k == a) = false := beq_eq_false_iff_ne.mpr h
    simp [List.lookup, hb, h]

theorem lookup_eq_none_of_not_mem_keys {β : Type} {l : List (String × β)} {k : String}
    (h : k ∉ l.map Prod.fst) : l.lookup k = none := by
  induction l with
  | nil => rfl
  | cons p rest ih =>
    obtain ⟨a, b⟩ := p
    simp only [List.map_cons, List.mem_cons, not_or] at h
    rw [lookup_cons_ite, if_neg h.1]
    exact ih h.2

theorem lookup_overwrite_self (m : List (String × Int)) (k : String) (v : Int)
    (hs : (m.lookup k).isSome = true) :
    (m.map (fun p => if p.1 == k then (k, v) else p)).lookup k = some v := by
  induction m with
  | nil => simp at hs
  | cons p rest ih =>
    obtain ⟨a, b⟩ := p
    rw [lookup_cons_ite] at hs
    by_cases hak : k = a
    · subst hak
      simp [lookup_cons_ite]
    · have hab : (a == k) = false := beq_eq_false_iff_ne.mpr (fun h => hak h.symm)
      rw [if_neg hak] at hs
      simp only [List.map_cons, hab, Bool.false_eq_true, if_false]
      rw [lookup_cons_ite, if_neg hak]
      exact ih hs

theorem lookup_overwrite_ne (m : List (String × Int)) (k k' : String) (v : Int)
    (h : k' ≠ k) :
    (m.map (fun p => if p.1 == k then (k, v) else p)).lookup k' = m.lookup k' := by
  induction m with
  | nil => rfl
  | cons p rest ih =>
    obtain ⟨a, b⟩ := p
    by_cases hak : a = k
    · subst hak
      simp only [List.map_cons, beq_self_eq_true, if_true]
      rw [lookup_cons_ite, lookup_cons_ite, if_neg h, if_neg h]
      exact ih
    · have hab : (a == k) = false := beq_eq_false_iff_ne.mpr hak
      simp only [List.map_cons, hab, Bool.false_eq_true, if_false]
      rw [lookup_cons_ite, lookup_cons_ite]
      by_cases hk'a : k' = a
      · rw [if_pos hk'a, if_pos hk'a]
      · rw [if_neg hk'a, if_neg hk'a]
        exact ih

theorem lookup_append_self (m : List (String × Int)) (k : String) (v : Int)
    (hs : (m.lookup k).isSome ≠ true) :
    (m ++ [(k, v)]).lookup k = some v := by
  induction m with
  | nil => simp [lookup_cons_ite]
  | cons p rest ih =>
    obtain ⟨a, b⟩ := p
    rw [lookup_cons_ite] at hs
    by_cases hak : k = a
    · rw [if_pos hak] at hs
      simp at hs
    · rw [if_neg hak] at hs
      rw [List.cons_append, lookup_cons_ite, if_neg hak]
      exact ih hs

theorem lookup_append_ne (m : List (String × Int)) (k k' : String) (v : Int)
    (h : k' ≠ k) :
    (m ++ [(k, v)]).lookup k' = m.lookup k' := by
  induction m with
  | nil => simp [lookup_cons_ite, h]
  | cons p rest ih =>
    obtain ⟨a, b⟩ := p
    rw [List.cons_append, lookup_cons_ite, lookup_cons_ite]
    by_cases hk'a : k' = a
    · rw [if_pos hk'a, if_pos hk'a]
    · rw [if_neg hk'a, if_neg hk'a]
      exact ih

theorem lookup_dictInsert_self (m : List (String × Int)) (k : String) (v : Int) :
    (dictInsert m k v).lookup k = some v := by
  unfold dictInsert
  split
  · exact lookup_overwrite_self m k v (by assumption)
  · exact lookup_append_self m k v (by assumption)

theorem lookup_dictInsert_ne (m : List (String × Int)) (k k' : String) (v : Int)
    (h : k' ≠ k) : (dictInsert m k v).lookup k' = m.lookup k' := by
  unfold dictInsert
  split
  · exact lookup_overwrite_ne m k k' v h
  · exact lookup_append_ne m k k' v h

theorem mem_keys_dictInsert {m : List (String × Int)} {k : String} {v : Int} {p : String × Int}
    (h : p ∈ dictInsert m k v) : p.1 ∈ m.map Prod.fst ∨ p.1 = k := by
  unfold dictInsert at h
  split at h
  · rcases List.mem_map.mp h with ⟨q, hq, hqp⟩
    by_cases hqk : q.1 = k
    · right
      rw [← hqp]
      simp only [hqk, beq_self_eq_true, if_pos]
    · left
      have : (q.1 == k) = false := beq_eq_false_iff_ne.mpr hqk
      rw [← hqp]
      simp only [this, Bool.false_eq_true, if_neg, not_false_iff]
      exact List.mem_map.mpr ⟨q, hq, rfl⟩
  · rcases List.mem_append.mp h with hm | hm
    · exact Or.inl (List.mem_map.mpr ⟨p, hm, rfl⟩)
    · right
      rcases List.mem_singleton.mp hm with rfl
      rfl

/-! ## Concept Detector (`ValenceDetector.detect`)

```python
def detect(self, doc: Doc) -> Dict[str, int]:
    results = {}
    for ent in doc.ents:
        key = ent.text.lower()
        results[key] = self.lexicon.get(key, 0)
    return results
```

Note the `.get(key, 0)`: an observed entity term that is *not* a lexicon
key is still inserted, with default value `0`.
-/

namespace ValenceDetector

def detect (lexicon : List (String × Int)) (doc : Doc) : List (String × Int) :=
  doc.ents.foldl
    (fun results ent =>
      let key := strLower ent.text
      dictInsert results key ((lexicon.lookup key).getD 0))
    []

end ValenceDetector

theorem detect_foldl_lookup (lexicon : List (String × Int)) (ents : List Ent)
    (init : List (String × Int)) (k : String) :
    (ents.foldl
        (fun results ent =>
          dictInsert results (strLower ent.text) ((lexicon.lookup (strLower ent.text)).getD 0))
        init).lookup k =
      if k ∈ ents.map (fun e => strLower e.text) then
        some ((lexicon.lookup k).getD 0)
      else init.lookup k := by
  induction ents generalizing init with
  | nil => simp
  | cons e rest ih =>
    simp only [List.foldl_cons, List.map_cons, List.mem_cons]
    rw [ih]
    by_cases hk : k ∈ rest.map (fun e => strLower e.text)
    · simp [hk]
    · by_cases hke : k = strLower e.text
      · rw [if_neg hk, if_pos (Or.inl hke), hke, lookup_dictInsert_self]
      · rw [if_neg hk, if_neg (by tauto), lookup_dictInsert_ne _ _ _ _ hke]

theorem detect_lookup (lexicon : List (String × Int)) (doc : Doc) (k : String) :
    (ValenceDetector.detect lexicon doc).lookup k =
      if k ∈ doc.ents.map (fun e => strLower e.text) then
        some ((lexicon.lookup k).getD 0)
      else none := by
  unfold ValenceDetector.detect
  simp only [detect_foldl_lookup, List.lookup_nil]

theorem detect_foldl_keys (lexicon : List (String × Int)) (ents : List Ent)
    (init : List (String × Int)) (p : String × Int)
    (hp : p ∈ ents.foldl
        (fun results ent =>
          dictInsert results (strLower ent.text) ((lexicon.lookup (strLower ent.text)).getD 0))
        init) :
    p.1 ∈ init.map Prod.fst ∨ p.1 ∈ ents.map (fun e => strLower e.text) := by
  induction ents generalizing init with
  | nil => exact Or.inl (List.mem_map.mpr ⟨p, hp, rfl⟩)
  | cons e rest ih =>
    simp only [List.foldl_cons] at hp
    rcases ih _ hp with h1 | h1
    · rcases List.mem_map.mp h1 with ⟨q, hq, hqp⟩
      rcases mem_keys_dictInsert hq with h2 | h2
      · exact Or.inl (hqp ▸ h2)
      · refine Or.inr ?_
        simp only [List.map_cons, List.mem_cons]
        exact Or.inl (hqp ▸ h2)
    · exact Or.inr (by simp [h1])

theorem detect_keys_observed (lexicon : List (String × Int)) (doc : Doc)
    (p : String × Int) (hp : p ∈ ValenceDetector.detect lexicon doc) :
    p.1 ∈ doc.ents.map (fun e => strLower e.text) := by
  unfold ValenceDetector.detect at hp
  rcases detect_foldl_keys lexicon doc.ents [] p hp with h1 | h1
  · simp at h1
  · exact h1

/-- A document whose only entity span is `headache`, which is not a key of
the lexicon `{"fever": 1}`. -/
def docHeadache : Doc := { tokens := [], ents := [{ text := "headache" }] }

/-- Claim C1 (counterexample): the claim says an observed entity term that
is not in the lexicon produces no entry at all, but `detect` inserts the
term with the dict default `0` (`self.lexicon.get(key, 0)`): on a document
whose sole entity is `headache` and the lexicon `{"fever": 1}`, the result
is `{"headache": 0}`, not `{}`. -/
theorem C1_counterexample :
    ValenceDetector.detect [("fever", 1)] docHeadache = [("headache", 0)] := by
  rfl

/-- Claim C1 (amended): the DetectionMap has an entry for exactly the
observed entity terms (lowercased); the value is `lexicon[term]` when the
term is a lexicon key and `0` otherwise, so a term absent from the lexicon
is inserted with value `0` rather than omitted. -/
theorem C1_detect_entries (lexicon : List (String × Int)) (doc : Doc) :
    (∀ k, k ∈ doc.ents.map (fun e => strLower e.text) →
      (ValenceDetector.detect lexicon doc).lookup k = some ((lexicon.lookup k).getD 0)) ∧
    (∀ k, k ∉ doc.ents.map (fun e => strLower e.text) →
      (ValenceDetector.detect lexicon doc).lookup k = none) := by
  constructor
  · intro k hk
    rw [detect_lookup, if_pos hk]
  · intro k hk
    rw [detect_lookup, if_neg hk]

/-- Witness for C1: on the concrete document and lexicon of the
counterexample, the amended characterisation evaluates as stated. -/
theorem C1_witness :
    (ValenceDetector.detect [("fever", 1)] docHeadache).lookup "headache" = some 0 ∧
    (ValenceDetector.detect [("fever", 1)] docHeadache).lookup "fever" = none := by
  constructor
  · rw [(C1_detect_entries [("fever", 1)] docHeadache).1 "headache" (by decide)]
    rfl
  · exact (C1_detect_entries [("fever", 1)] docHeadache).2 "fever" (by decide)

/-! ## Phenotype Aggregator (`PhenotypingEngine.tag`)

```python
def tag(self, detected_tokens: Dict[str, int]) -> Dict[str, float]:
    grouped = defaultdict(list)
    for group, keywords in self.rules.items():
        for kw in keywords:
            if kw in detected_tokens:
                grouped[group].append(detected_tokens[kw])
    output = {}
    for group, vals in grouped.items():
        if vals:
            output[group] = (np.mean(vals) + 1)/2
        else:
            output[group] = 0.0
    return output
```

The `defaultdict(list)` is modelled by `groupedAppend` (append to an
existing binding, create a singleton binding otherwise).  Note that a
group acquires a `grouped` entry only when one of its keywords is a key of
`detected_tokens`, so the `else: output[group] = 0.0` branch is
unreachable.  `np.mean` on the list of integer valences is modelled as the
exact rational mean.
-/

def listMean (vals : List Int) : ℚ := (vals.map (Int.cast : Int → ℚ)).sum / vals.length

def collectVals (detections : List (String × Int)) (keywords : List String) : List Int :=
  keywords.filterMap (fun kw => detections.lookup kw)

def groupedAppend (g : List (String × List Int)) (k : String) (v : Int) :
    List (String × List Int) :=
  if (g.lookup k).isSome then
    g.map (fun p => if p.1 == k then (p.1, p.2 ++ [v]) else p)
  else g ++ [(k, [v])]

def tagStep (detections : List (String × Int)) (group : String)
    (g : List (String × List Int)) (kw : String) : List (String × List Int) :=
  match detections.lookup kw with
  | some v => groupedAppend g group v
  | none => g

/-- The score written to `output[group]`: `(np.mean(vals) + 1) / 2` for a
non-empty valence list, and the (unreachable, see `tagStep_foldl`) `0.0`
branch for an empty one. -/
def scoreOf (vals : List Int) : ℚ :=
  if vals.isEmpty then 0 else (listMean vals + 1) / 2

namespace PhenotypingEngine

def tag (rules : List (String × List String)) (detections : List (String × Int)) :
    List (String × ℚ) :=
  (rules.foldl (fun g gr => gr.2.foldl (tagStep detections gr.1) g) []).map
    (fun p => (p.1, scoreOf p.2))

end PhenotypingEngine

theorem map_id_of_forall {α : Type} (l : List α) (f : α → α) (h : ∀ a ∈ l, f a = a) :
    l.map f = l := by
  induction l with
  | nil => rfl
  | cons a rest ih =>
    simp only [List.map_cons, h a (List.mem_cons_self a rest)]
    rw [ih (fun x hx => h x (List.mem_cons_of_mem a hx))]

theorem groupedAppend_new (g : List (String × List Int)) (k : String) (v : Int)
    (h : k ∉ g.map Prod.fst) : groupedAppend g k v = g ++ [(k, [v])] := by
  unfold groupedAppend
  rw [lookup_eq_none_of_not_mem_keys h]
  simp

theorem lookup_append_last {β : Type} (g : List (String × β)) (k : String) (b : β)
    (h : k ∉ g.map Prod.fst) : (g ++ [(k, b)]).lookup k = some b := by
  induction g with
  | nil => simp [lookup_cons_ite]
  | cons p rest ih =>
    obtain ⟨a, c⟩ := p
    simp only [List.map_cons, List.mem_cons, not_or] at h
    rw [List.cons_append, lookup_cons_ite, if_neg h.1]
    exact ih h.2

theorem groupedAppend_last (g : List (String × List Int)) (k : String) (acc : List Int)
    (v : Int) (h : k ∉ g.map Prod.fst) :
    groupedAppend (g ++ [(k, acc)]) k v = g ++ [(k, acc ++ [v])] := by
  unfold groupedAppend
  rw [lookup_append_last g k acc h]
  simp only [Option.isSome_some, if_true, List.map_append]
  congr 1
  · apply map_id_of_forall
    intro p hp
    have hpk : p.1 ≠ k := by
      intro he
      exact h (he ▸ List.mem_map.mpr ⟨p, hp, rfl⟩)
    simp [beq_eq_false_iff_ne.mpr hpk]
  · simp

theorem collectVals_nil (detections : List (String × Int)) :
    collectVals detections [] = [] := rfl

theorem collectVals_cons_none {detections : List (String × Int)} {kw : String}
    (rest : List String) (hkw : detections.lookup kw = none) :
    collectVals detections (kw :: rest) = collectVals detections rest := by
  simp only [collectVals, List.filterMap_cons, hkw]

theorem collectVals_cons_some {detections : List (String × Int)} {kw : String} {v : Int}
    (rest : List String) (hkw : detections.lookup kw = some v) :
    collectVals detections (kw :: rest) = v :: collectVals detections rest := by
  simp only [collectVals, List.filterMap_cons, hkw]

theorem tagStep_foldl_last (detections : List (String × Int)) (group : String)
    (kws : List String) (g0 : List (String × List Int)) (acc : List Int)
    (h : group ∉ g0.map Prod.fst) :
    kws.foldl (tagStep detections group) (g0 ++ [(group, acc)]) =
      g0 ++ [(group, acc ++ collectVals detections kws)] := by
  induction kws generalizing acc with
  | nil => simp [collectVals]
  | cons kw rest ih =>
    simp only [List.foldl_cons]
    cases hkw : detections.lookup kw with
    | none =>
      simp only [tagStep, hkw]
      rw [ih acc, collectVals_cons_none rest hkw]
    | some v =>
      simp only [tagStep, hkw]
      rw [groupedAppend_last g0 group acc v h, ih (acc ++ [v]),
        collectVals_cons_some rest hkw]
      simp

theorem tagStep_foldl (detections : List (String × Int)) (group : String)
    (kws : List String) (g0 : List (String × List Int))
    (h : group ∉ g0.map Prod.fst) :
    kws.foldl (tagStep detections group) g0 =
      g0 ++ (if (collectVals detections kws).isEmpty then []
             else [(group, collectVals detections kws)]) := by
  induction kws with
  | nil => simp [collectVals]
  | cons kw rest ih =>
    simp only [List.foldl_cons]
    cases hkw : detections.lookup kw with
    | none =>
      simp only [tagStep, hkw]
      rw [ih, collectVals_cons_none rest hkw]
    | some v =>
      simp only [tagStep, hkw]
      rw [groupedAppend_new g0 group v h,
        tagStep_foldl_last detections group rest g0 [v] h,
        collectVals_cons_some rest hkw]
      simp

/-- The `grouped` dict computed by `tag`, written as a `filterMap` over the
rule set: a group appears exactly when at least one of its keywords is a
detection key, carrying the list of the matched keywords' valences. -/
def tagGroups (detections : List (String × Int)) (rules : List (String × List String)) :
    List (String × List Int) :=
  rules.filterMap (fun gr =>
    if (collectVals detections gr.2).isEmpty then none
    else some (gr.1, collectVals detections gr.2))

theorem tagGroups_cons_none (detections : List (String × Int)) (gr : String × List String)
    (rest : List (String × List String))
    (he : (collectVals detections gr.2).isEmpty = true) :
    tagGroups detections (gr :: rest) = tagGroups detections rest := by
  unfold tagGroups
  have hf : (fun gr : String × List String =>
      if (collectVals detections gr.2).isEmpty then none
      else some (gr.1, collectVals detections gr.2)) gr = none := by
    simp [he]
  exact List.filterMap_cons_none hf

theorem tagGroups_cons_some (detections : List (String × Int)) (gr : String × List String)
    (rest : List (String × List String))
    (he : (collectVals detections gr.2).isEmpty = false) :
    tagGroups detections (gr :: rest) =
      (gr.1, collectVals detections gr.2) :: tagGroups detections rest := by
  unfold tagGroups
  have hf : (fun gr : String × List String =>
      if (collectVals detections gr.2).isEmpty then none
      else some (gr.1, collectVals detections gr.2)) gr =
      some (gr.1, collectVals detections gr.2) := by
    simp [he]
  exact List.filterMap_cons_some hf

theorem tag_grouped_eq (detections : List (String × Int))
    (rules : List (String × List String)) (g0 : List (String × List Int))
    (hdisj : ∀ gr ∈ rules, gr.1 ∉ g0.map Prod.fst)
    (hnd : (rules.map Prod.fst).Nodup) :
    rules.foldl (fun g gr => gr.2.foldl (tagStep detections gr.1) g) g0 =
      g0 ++ tagGroups detections rules := by
  induction rules generalizing g0 with
  | nil => simp [tagGroups]
  | cons gr rest ih =>
    simp only [List.foldl_cons]
    rw [tagStep_foldl detections gr.1 gr.2 g0 (hdisj gr (List.mem_cons_self _ _))]
    simp only [List.map_cons, List.nodup_cons] at hnd
    cases he : (collectVals detections gr.2).isEmpty with
    | true =>
      simp only [if_true]
      rw [List.append_nil]
      rw [ih g0 (fun q hq => hdisj q (List.mem_cons_of_mem _ hq)) hnd.2,
        tagGroups_cons_none detections gr rest he]
    | false =>
      simp only [Bool.false_eq_true, if_false]
      have hstep : ∀ q ∈ rest, q.1 ∉ (g0 ++ [(gr.1, collectVals detections gr.2)]).map Prod.fst := by
        intro q hq
        simp only [List.map_append, List.mem_append, List.map_cons, List.map_nil,
          List.mem_singleton, not_or]
        refine ⟨hdisj q (List.mem_cons_of_mem _ hq), ?_⟩
        intro he2
        exact hnd.1 (he2 ▸ List.mem_map.mpr ⟨q, hq, rfl⟩)
      rw [ih _ hstep hnd.2, tagGroups_cons_some detections gr rest he]
      simp [List.append_assoc]

theorem tagGroups_lookup (detections : List (String × Int))
    (rules : List (String × List String))
    (hnd : (rules.map Prod.fst).Nodup) (g : String) (kws : List String)
    (hg : (g, kws) ∈ rules)
    (hne : (collectVals detections kws).isEmpty = false) :
    (tagGroups detections rules).lookup g = some (collectVals detections kws) := by
  induction rules with
  | nil => simp at hg
  | cons gr rest ih =>
    simp only [List.map_cons, List.nodup_cons] at hnd
    rcases List.mem_cons.mp hg with heq | hmem
    · obtain rfl : gr = (g, kws) := heq.symm
      rw [tagGroups_cons_some detections (g, kws) rest hne]
      rw [lookup_cons_ite, if_pos rfl]
    · have hgne : g ≠ gr.1 := by
        intro he
        exact hnd.1 (he ▸ List.mem_map.mpr ⟨(g, kws), hmem, rfl⟩)
      cases he2 : (collectVals detections gr.2).isEmpty with
      | true =>
        rw [tagGroups_cons_none detections gr rest he2]
        exact ih hnd.2 hmem
      | false =>
        rw [tagGroups_cons_some detections gr rest he2]
        rw [lookup_cons_ite, if_neg hgne]
        exact ih hnd.2 hmem

theorem lookup_map_snd {β γ : Type} (l : List (String × β)) (f : β → γ) (k : String) :
    (l.map (fun p => (p.1, f p.2))).lookup k = (l.lookup k).map f := by
  induction l with
  | nil => rfl
  | cons p rest ih =>
    obtain ⟨a, b⟩ := p
    simp only [List.map_cons]
    rw [lookup_cons_ite, lookup_cons_ite]
    by_cases h : k = a
    · rw [if_pos h, if_pos h]
      rfl
    · rw [if_neg h, if_neg h]
      exact ih

theorem tag_lookup (detections : List (String × Int))
    (rules : List (String × List String))
    (hnd : (rules.map Prod.fst).Nodup) (g : String) (kws : List String)
    (hg : (g, kws) ∈ rules)
    (hne : (collectVals detections kws).isEmpty = false) :
    (PhenotypingEngine.tag rules detections).lookup g =
      some ((listMean (collectVals detections kws) + 1) / 2) := by
  unfold PhenotypingEngine.tag
  rw [tag_grouped_eq detections rules [] (by simp) hnd]
  rw [List.nil_append, lookup_map_snd, tagGroups_lookup detections rules hnd g kws hg hne]
  simp [scoreOf, hne]

theorem mem_of_lookup_eq_some {β : Type} {l : List (String × β)} {k : String} {v : β}
    (h : l.lookup k = some v) : (k, v) ∈ l := by
  induction l with
  | nil => simp [List.lookup] at h
  | cons p rest ih =>
    obtain ⟨a, b⟩ := p
    rw [lookup_cons_ite] at h
    by_cases hka : k = a
    · rw [if_pos hka] at h
      injection h with h2
      subst h2
      subst hka
      exact List.mem_cons_self _ _
    · rw [if_neg hka] at h
      exact List.mem_cons_of_mem _ (ih h)

theorem collectVals_bounded (detections : List (String × Int)) (kws : List String)
    (hb : ∀ p ∈ detections, -1 ≤ p.2 ∧ p.2 ≤ 1) :
    ∀ v ∈ collectVals detections kws, -1 ≤ v ∧ v ≤ 1 := by
  intro v hv
  rcases List.mem_filterMap.mp (by simpa [collectVals] using hv) with ⟨kw, hmem, hkw⟩
  exact hb (kw, v) (mem_of_lookup_eq_some hkw)

theorem list_sum_le (l : List ℚ) (c : ℚ) (h : ∀ x ∈ l, x ≤ c) :
    l.sum ≤ c * l.length := by
  induction l with
  | nil => simp
  | cons x rest ih =>
    simp only [List.sum_cons, List.length_cons]
    have h1 := h x (List.mem_cons_self _ _)
    have h2 := ih (fun y hy => h y (List.mem_cons_of_mem _ hy))
    have h3 : (c * ((rest.length : ℚ) + 1)) = c * rest.length + c := by ring
    push_cast
    linarith

theorem le_list_sum (l : List ℚ) (c : ℚ) (h : ∀ x ∈ l, c ≤ x) :
    c * l.length ≤ l.sum := by
  induction l with
  | nil => simp
  | cons x rest ih =>
    simp only [List.sum_cons, List.length_cons]
    have h1 := h x (List.mem_cons_self _ _)
    have h2 := ih (fun y hy => h y (List.mem_cons_of_mem _ hy))
    have h3 : (c * ((rest.length : ℚ) + 1)) = c * rest.length + c := by ring
    push_cast
    linarith

theorem listMean_bounds (vals : List Int) (hne : vals ≠ [])
    (hb : ∀ v ∈ vals, -1 ≤ v ∧ v ≤ 1) :
    -1 ≤ listMean vals ∧ listMean vals ≤ 1 := by
  have hlen : 0 < (vals.length : ℚ) := by
    have h0 : 0 < vals.length := List.length_pos.mpr hne
    exact_mod_cast h0
  have hb1 : ∀ x ∈ vals.map (Int.cast : Int → ℚ), x ≤ 1 := by
    intro x hx
    rcases List.mem_map.mp hx with ⟨v, hv, rfl⟩
    exact_mod_cast (hb v hv).2
  have hb2 : ∀ x ∈ vals.map (Int.cast : Int → ℚ), (-1 : ℚ) ≤ x := by
    intro x hx
    rcases List.mem_map.mp hx with ⟨v, hv, rfl⟩
    exact_mod_cast (hb v hv).1
  have hsum1 := list_sum_le _ 1 hb1
  have hsum2 := le_list_sum _ (-1) hb2
  rw [List.length_map] at hsum1 hsum2
  unfold listMean
  constructor
  · rw [le_div_iff₀ hlen]
    linarith
  · rw [div_le_iff₀ hlen]
    linarith

theorem listMean_singleton (v : Int) : listMean [v] = v := by
  simp [listMean]

/-- Claim C2 (code bug, at the failing input): with rule set
`{"INFECTION": ["fever", "cough"]}` and empty detections, `tag` returns the
empty mapping — the group `INFECTION` is absent instead of present with
score `0.0`, because `grouped` (a `defaultdict`) only acquires a group on a
keyword hit, leaving the `else: output[group] = 0.0` branch unreachable. -/
theorem C2_zero_group_omitted :
    PhenotypingEngine.tag [("INFECTION", ["fever", "cough"])] [] = [] := by rfl

/-- Claim C5: for detections with polarities in `[-1, 1]` and a rule-set
group one of whose trigger terms is detected, the tagged score is exactly
`(mean + 1) / 2`, lies in `[0, 1]`, and a sole detected trigger of
polarity `+1` (resp. `-1`) yields score `1` (resp. `0`). -/
theorem C5_score_formula (detections : List (String × Int))
    (rules : List (String × List String))
    (hnd : (rules.map Prod.fst).Nodup)
    (hb : ∀ p ∈ detections, -1 ≤ p.2 ∧ p.2 ≤ 1)
    (g : String) (kws : List String) (hg : (g, kws) ∈ rules)
    (hne : collectVals detections kws ≠ []) :
    (PhenotypingEngine.tag rules detections).lookup g =
      some ((listMean (collectVals detections kws) + 1) / 2) ∧
    0 ≤ (listMean (collectVals detections kws) + 1) / 2 ∧
    (listMean (collectVals detections kws) + 1) / 2 ≤ 1 ∧
    (collectVals detections kws = [1] →
      (listMean (collectVals detections kws) + 1) / 2 = 1) ∧
    (collectVals detections kws = [-1] →
      (listMean (collectVals detections kws) + 1) / 2 = 0) := by
  have hne2 : (collectVals detections kws).isEmpty = false := by
    rcases hcv : collectVals detections kws with _ | ⟨a, l⟩
    · exact absurd hcv hne
    · rfl
  have hmean := listMean_bounds (collectVals detections kws) hne
    (collectVals_bounded detections kws hb)
  refine ⟨tag_lookup detections rules hnd g kws hg hne2, ?_, ?_, ?_, ?_⟩
  · linarith [hmean.1]
  · linarith [hmean.2]
  · intro hone
    rw [hone, listMean_singleton]
    norm_num
  · intro hmone
    rw [hmone, listMean_singleton]
    norm_num

/-- Witness for C5: the spec's own scenario — lexicon-derived detections
`{"fever": 1}`, rules `{"INFECTION": ["fever", "cough"]}` — scores
`INFECTION` at exactly `1`. -/
theorem C5_witness :
    (PhenotypingEngine.tag [("INFECTION", ["fever", "cough"])] [("fever", 1)]).lookup
      "INFECTION" = some 1 := by
  have h := C5_score_formula [("fever", 1)] [("INFECTION", ["fever", "cough"])]
    (by simp) (by decide) "INFECTION" ["fever", "cough"] (by simp) (by decide)
  rw [h.1, h.2.2.2.1 (by decide)]

theorem mem_keys_groupedAppend {g : List (String × List Int)} {k : String} {v : Int}
    {p : String × List Int} (hp : p ∈ groupedAppend g k v) :
    p.1 ∈ g.map Prod.fst ∨ p.1 = k := by
  unfold groupedAppend at hp
  split at hp
  · rcases List.mem_map.mp hp with ⟨q, hq, hqp⟩
    left
    have hfst : p.1 = q.1 := by
      rw [← hqp]
      by_cases hqk : q.1 = k
      · simp [hqk]
      · simp [beq_eq_false_iff_ne.mpr hqk]
    rw [hfst]
    exact List.mem_map.mpr ⟨q, hq, rfl⟩
  · rcases List.mem_append.mp hp with hm | hm
    · exact Or.inl (List.mem_map.mpr ⟨p, hm, rfl⟩)
    · rcases List.mem_singleton.mp hm with rfl
      exact Or.inr rfl

theorem mem_keys_tagStep {detections : List (String × Int)} {group kw : String}
    {g : List (String × List Int)} {p : String × List Int}
    (hp : p ∈ tagStep detections group g kw) :
    p.1 ∈ g.map Prod.fst ∨ p.1 = group := by
  unfold tagStep at hp
  cases h : detections.lookup kw with
  | none =>
    rw [h] at hp
    exact Or.inl (List.mem_map.mpr ⟨p, hp, rfl⟩)
  | some v =>
    rw [h] at hp
    exact mem_keys_groupedAppend hp

theorem mem_keys_tagStep_foldl (detections : List (String × Int)) (group : String)
    (kws : List String) :
    ∀ g0, ∀ p ∈ kws.foldl (tagStep detections group) g0,
      p.1 ∈ g0.map Prod.fst ∨ p.1 = group := by
  induction kws with
  | nil =>
    intro g0 p hp
    exact Or.inl (List.mem_map.mpr ⟨p, hp, rfl⟩)
  | cons kw rest ih =>
    intro g0 p hp
    simp only [List.foldl_cons] at hp
    rcases ih _ p hp with h1 | h1
    · rcases List.mem_map.mp h1 with ⟨q, hq, hqp⟩
      rcases mem_keys_tagStep hq with h2 | h2
      · exact Or.inl (hqp ▸ h2)
      · exact Or.inr (hqp ▸ h2)
    · exact Or.inr h1

theorem mem_keys_tag_foldl (detections : List (String × Int))
    (rules : List (String × List String)) :
    ∀ g0, ∀ p ∈ rules.foldl (fun g gr => gr.2.foldl (tagStep detections gr.1) g) g0,
      p.1 ∈ g0.map Prod.fst ∨ p.1 ∈ rules.map Prod.fst := by
  induction rules with
  | nil =>
    intro g0 p hp
    exact Or.inl (List.mem_map.mpr ⟨p, hp, rfl⟩)
  | cons gr rest ih =>
    intro g0 p hp
    simp only [List.foldl_cons] at hp
    rcases ih _ p hp with h1 | h1
    · rcases List.mem_map.mp h1 with ⟨q, hq, hqp⟩
      rcases mem_keys_tagStep_foldl detections gr.1 gr.2 g0 q hq with h2 | h2
      · exact Or.inl (hqp ▸ h2)
      · refine Or.inr ?_
        simp only [List.map_cons, List.mem_cons]
        exact Or.inl (hqp ▸ h2)
    · refine Or.inr ?_
      simp only [List.map_cons, List.mem_cons]
      exact Or.inr h1

/-- Claim C9: every key of the mapping returned by `tag` is a phenotype
group name of the rule set — the aggregator never invents a group. -/
theorem C9_tag_keys_subset (rules : List (String × List String))
    (detections : List (String × Int)) (p : String × ℚ)
    (hp : p ∈ PhenotypingEngine.tag rules detections) :
    p.1 ∈ rules.map Prod.fst := by
  unfold PhenotypingEngine.tag at hp
  rcases List.mem_map.mp hp with ⟨q, hq, hqp⟩
  rcases mem_keys_tag_foldl detections rules [] q hq with h1 | h1
  · simp at h1
  · have hfst : p.1 = q.1 := by rw [← hqp]
    rw [hfst]
    exact h1

theorem tag_scenario :
    PhenotypingEngine.tag [("INFECTION", ["fever", "cough"])] [("fever", 1)]
      = [("INFECTION", 1)] := by
  unfold PhenotypingEngine.tag
  have h1 : ([("INFECTION", ["fever", "cough"])] : List (String × List String)).foldl
      (fun g gr => gr.2.foldl (tagStep [("fever", 1)] gr.1) g) []
      = [("INFECTION", [1])] := by decide
  rw [h1]
  simp only [List.map_cons, List.map_nil]
  norm_num [scoreOf, listMean]

/-- Witness for C9: at the spec's scenario inputs, the sole output key
`INFECTION` is indeed a rule-set group name. -/
theorem C9_witness :
    ("INFECTION", (1 : ℚ)).1 ∈
      (([("INFECTION", ["fever", "cough"])] : List (String × List String)).map Prod.fst) :=
  C9_tag_keys_subset [("INFECTION", ["fever", "cough"])] [("fever", 1)]
    ("INFECTION", 1) (by rw [tag_scenario]; exact List.mem_singleton.mpr rfl)

/-! ## Section Segmenter (`NLPProcessor.section_segmenter`)

```python
sections = []
pattern = re.compile(r'^(history of present illness|physical exam|'
                     r'assessment and plan|medications|impression|labs|diagnosis):?$', re.I)
for i, token in enumerate(doc):
    if token.is_sent_start:
        sent_text = token.sent.text.strip().lower()
        if pattern.match(sent_text):
            if sections:
                sections[-1]['end'] = i - 1
            sections.append({'title': sent_text, 'start': i, 'end': None})
if sections:
    sections[-1]['end'] = len(doc) - 1
```

The scan is rendered as the list of header hits (position, sentence text)
in document order, closed into sections exactly as the loop does: a
section's `end` becomes the next header position minus one, and the last
opened section is closed with the final token index.  Note the stored
title is `sent_text` itself — stripped and lowercased but with any
trailing colon retained.
-/

def recognizedHeaders : List String :=
  ["history of present illness", "physical exam", "assessment and plan",
   "medications", "impression", "labs", "diagnosis"]

/-- The anchored pattern `^(h1|...|h7):?$` (case-insensitivity is moot
because the scrutinee is already lowercased): it accepts exactly a
recognized header, optionally followed by a single colon. -/
def patternMatch (s : String) : Bool :=
  recognizedHeaders.any (fun h => s == h || s == h ++ ":")

/-- The per-token test of the scan loop: for a sentence-initial token,
the stripped lowercased sentence text when it matches the pattern. -/
def headerOf (tok : Token) : Option String :=
  if tok.is_sent_start then
    let sent_text := strLower (strTrim tok.sentText)
    if patternMatch sent_text then some sent_text else none
  else none

/-- The header hits of `for i, token in enumerate(doc)`, starting the
index count at `i`. -/
def headerHitsFrom : Nat → List Token → List (Nat × String)
  | _, [] => []
  | i, tok :: rest =>
    match headerOf tok with
    | some t => (i, t) :: headerHitsFrom (i + 1) rest
    | none => headerHitsFrom (i + 1) rest

/-- One entry of `doc._.sections` after the scan has closed it:
`{'title': ..., 'start': ..., 'end': ...}` (the transient `'end': None`
state only exists inside the loop). -/
structure SectionEntry where
  title : String
  start : Nat
  endIdx : Nat
  deriving DecidableEq, Repr

def closeSections : List (Nat × String) → Nat → List SectionEntry
  | [], _ => []
  | [(i, t)], lastIdx => [⟨t, i, lastIdx⟩]
  | (i, t) :: (j, u) :: rest, lastIdx =>
    ⟨t, i, j - 1⟩ :: closeSections ((j, u) :: rest) lastIdx

def section_segmenter (doc : Doc) : List SectionEntry :=
  closeSections (headerHitsFrom 0 doc.tokens) (doc.tokens.length - 1)

/-- The text of `doc[start : end+1]` (spaCy `Span.text`), abstracted as
the token texts of the slice joined by single spaces; the claims about
`extract_section_text` depend only on found versus not-found. -/
def spanText (doc : Doc) (s e : Nat) : String :=
  String.intercalate " " (((doc.tokens.drop s).take (e + 1 - s)).map Token.text)

/-- `NLPProcessor.extract_section_text`: first section whose stored title
equals the requested title case-insensitively, or `None`. -/
def extract_section_text (doc : Doc) (title : String) : Option String :=
  match (section_segmenter doc).find? (fun sec => strLower sec.title == strLower title) with
  | some sec => some (spanText doc sec.start sec.endIdx)
  | none => none

theorem headerHitsFrom_mem (l : List Token) :
    ∀ i p, p ∈ headerHitsFrom i l → i ≤ p.1 ∧ p.1 < i + l.length := by
  induction l with
  | nil =>
    intro i p hp
    simp [headerHitsFrom] at hp
  | cons tok rest ih =>
    intro i p hp
    cases h : headerOf tok with
    | none =>
      simp only [headerHitsFrom, h] at hp
      have := ih (i + 1) p hp
      simp only [List.length_cons]
      omega
    | some t =>
      simp only [headerHitsFrom, h] at hp
      rcases List.mem_cons.mp hp with rfl | hp2
      · simp only [List.length_cons]
        omega
      · have := ih (i + 1) p hp2
        simp only [List.length_cons]
        omega

theorem headerHitsFrom_pairwise (l : List Token) :
    ∀ i, (headerHitsFrom i l).Pairwise (fun a b => a.1 < b.1) := by
  induction l with
  | nil =>
    intro i
    simp [headerHitsFrom]
  | cons tok rest ih =>
    intro i
    cases h : headerOf tok with
    | none =>
      simp only [headerHitsFrom, h]
      exact ih (i + 1)
    | some t =>
      simp only [headerHitsFrom, h]
      refine List.Pairwise.cons ?_ (ih (i + 1))
      intro b hb
      have := (headerHitsFrom_mem rest (i + 1) b hb).1
      omega

theorem closeSections_map (hits : List (Nat × String)) (lastIdx : Nat) :
    (closeSections hits lastIdx).map (fun s => (s.start, s.title)) = hits := by
  induction hits with
  | nil => rfl
  | cons p rest ih =>
    obtain ⟨i, t⟩ := p
    cases rest with
    | nil => rfl
    | cons q rest2 =>
      obtain ⟨j, u⟩ := q
      simp only [closeSections, List.map_cons]
      rw [ih]

theorem closeSections_ne_nil (i : Nat) (t : String) (rest : List (Nat × String))
    (lastIdx : Nat) : closeSections ((i, t) :: rest) lastIdx ≠ [] := by
  cases rest with
  | nil => simp [closeSections]
  | cons q rest2 =>
    obtain ⟨j, u⟩ := q
    simp [closeSections]

theorem closeSections_invariants :
    ∀ (hits : List (Nat × String)) (lastIdx : Nat),
      hits.Pairwise (fun a b => a.1 < b.1) → (∀ p ∈ hits, p.1 ≤ lastIdx) →
      ((closeSections hits lastIdx).Pairwise
          (fun a b => a.endIdx < b.start ∧ a.start < b.start)) ∧
      (∀ s ∈ closeSections hits lastIdx, s.start ≤ s.endIdx) ∧
      (∀ s, (closeSections hits lastIdx).getLast? = some s → s.endIdx = lastIdx) := by
  intro hits
  induction hits with
  | nil =>
    intro lastIdx hpw hle
    simp [closeSections]
  | cons p rest ih =>
    intro lastIdx hpw hle
    obtain ⟨i, t⟩ := p
    cases rest with
    | nil =>
      refine ⟨?_, ?_, ?_⟩
      · simp [closeSections]
      · intro s hs
        simp only [closeSections, List.mem_singleton] at hs
        subst hs
        exact hle (i, t) (List.mem_singleton.mpr rfl)
      · intro s hs
        simp only [closeSections, List.getLast?_singleton, Option.some_inj] at hs
        subst hs
        rfl
    | cons q rest2 =>
      obtain ⟨j, u⟩ := q
      have hij : i < j :=
        (List.pairwise_cons.mp hpw).1 (j, u) (List.mem_cons_self _ _)
      have hpw2 : ((j, u) :: rest2).Pairwise (fun a b : Nat × String => a.1 < b.1) :=
        (List.pairwise_cons.mp hpw).2
      have hle2 : ∀ p ∈ (j, u) :: rest2, p.1 ≤ lastIdx :=
        fun p hp => hle p (List.mem_cons_of_mem _ hp)
      obtain ⟨ihp, ihs, ihl⟩ := ih lastIdx hpw2 hle2
      have hjle : ∀ p ∈ (j, u) :: rest2, j ≤ p.1 := by
        intro p hp
        rcases List.mem_cons.mp hp with rfl | hp2
        · exact Nat.le_refl j
        · exact Nat.le_of_lt ((List.pairwise_cons.mp hpw2).1 p hp2)
      have hstart : ∀ s ∈ closeSections ((j, u) :: rest2) lastIdx, j ≤ s.start := by
        intro s hs
        have hmm : (s.start, s.title) ∈ (j, u) :: rest2 := by
          rw [← closeSections_map ((j, u) :: rest2) lastIdx]
          exact List.mem_map.mpr ⟨s, hs, rfl⟩
        exact hjle (s.start, s.title) hmm
      refine ⟨?_, ?_, ?_⟩
      · simp only [closeSections]
        refine List.Pairwise.cons ?_ ihp
        intro s hs
        have := hstart s hs
        constructor
        · show j - 1 < s.start
          omega
        · show i < s.start
          omega
      · intro s hs
        simp only [closeSections] at hs
        rcases List.mem_cons.mp hs with rfl | hs2
        · show i ≤ j - 1
          omega
        · exact ihs s hs2
      · intro s hs
        simp only [closeSections] at hs
        cases hcs : closeSections ((j, u) :: rest2) lastIdx with
        | nil => exact absurd hcs (closeSections_ne_nil j u rest2 lastIdx)
        | cons c cs3 =>
          rw [hcs, List.getLast?_cons_cons] at hs
          apply ihl
          rw [hcs]
          exact hs

/-- Claim C6: the segmenter's sections are in document order with pairwise
non-overlapping token ranges, each `end >= start`, and a non-empty result
ends at the document's final token index. -/
theorem C6_section_invariants (doc : Doc) :
    ((section_segmenter doc).Pairwise
        (fun a b => a.endIdx < b.start ∧ a.start < b.start)) ∧
    (∀ s ∈ section_segmenter doc, s.start ≤ s.endIdx) ∧
    (∀ s, (section_segmenter doc).getLast? = some s →
      s.endIdx = doc.tokens.length - 1) := by
  unfold section_segmenter
  apply closeSections_invariants
  · exact headerHitsFrom_pairwise doc.tokens 0
  · intro p hp
    have := (headerHitsFrom_mem doc.tokens 0 p hp).2
    omega

/-- A concrete two-section note: `Medications:` then `Labs`. -/
def docTwoSections : Doc :=
  { tokens :=
      [{ text := "Medications:", is_sent_start := true, sentText := "Medications:" },
       { text := "aspirin", is_sent_start := false, sentText := "Medications: aspirin" },
       { text := "Labs", is_sent_start := true, sentText := "Labs" },
       { text := "CBC", is_sent_start := false, sentText := "Labs CBC" }],
    ents := [] }

/-- Witness for C6: the invariants instantiated on a concrete two-header
document. -/
theorem C6_witness :
    (section_segmenter docTwoSections).Pairwise
      (fun a b => a.endIdx < b.start ∧ a.start < b.start) :=
  (C6_section_invariants docTwoSections).1

theorem headerOf_eq_none (tok : Token)
    (h : tok.is_sent_start = true → patternMatch (strLower (strTrim tok.sentText)) = false) :
    headerOf tok = none := by
  unfold headerOf
  cases hss : tok.is_sent_start with
  | false => simp
  | true => simp [h hss]

theorem headerHitsFrom_nil (l : List Token) (h : ∀ tok ∈ l, headerOf tok = none) :
    ∀ i, headerHitsFrom i l = [] := by
  induction l with
  | nil => intro i; rfl
  | cons tok rest ih =>
    intro i
    simp only [headerHitsFrom, h tok (List.mem_cons_self _ _)]
    exact ih (fun t ht => h t (List.mem_cons_of_mem _ ht)) (i + 1)

/-- Claim C7: when no sentence-initial line matches a recognized header,
segmentation returns the empty sequence (not an error), and every title
lookup returns the not-found signal `None`. -/
theorem C7_no_headers (doc : Doc)
    (h : ∀ tok ∈ doc.tokens, tok.is_sent_start = true →
      patternMatch (strLower (strTrim tok.sentText)) = false) :
    section_segmenter doc = [] ∧ ∀ title, extract_section_text doc title = none := by
  have hseg : section_segmenter doc = [] := by
    unfold section_segmenter
    rw [headerHitsFrom_nil doc.tokens (fun tok ht => headerOf_eq_none tok (h tok ht)) 0]
    rfl
  refine ⟨hseg, ?_⟩
  intro title
  unfold extract_section_text
  rw [hseg]
  rfl

/-- A note with no recognized header line. -/
def docPlain : Doc :=
  { tokens :=
      [{ text := "The", is_sent_start := true, sentText := "The patient reports fever." },
       { text := "patient", is_sent_start := false, sentText := "The patient reports fever." }],
    ents := [] }

/-- Witness for C7: the concrete header-free note yields no sections and a
not-found lookup. -/
theorem C7_witness :
    section_segmenter docPlain = [] ∧ extract_section_text docPlain "medications" = none := by
  have h := C7_no_headers docPlain (by decide)
  exact ⟨h.1, h.2 "medications"⟩

/-- A note whose sentence-initial line is the header `Medications:` with a
trailing colon. -/
def docMeds : Doc :=
  { tokens :=
      [{ text := "Medications:", is_sent_start := true, sentText := "Medications:" },
       { text := "aspirin", is_sent_start := false, sentText := "Medications: aspirin" }],
    ents := [] }

/-- Claim C4 (counterexample): the claim says the stored section title has
the trailing colon stripped so that `text_of(doc, "medications")` finds the
section; in fact the code stores the title with the colon (`sent_text`
itself), so the colon-free lookup returns `None` — the stored title is
`"medications:"`. -/
theorem C4_counterexample :
    extract_section_text docMeds "medications" = none ∧
    section_segmenter docMeds = [{ title := "medications:", start := 0, endIdx := 1 }] := by
  constructor
  · rfl
  · rfl

theorem headerHitsFrom_mem_of_get (l : List Token) :
    ∀ j i tok t, l[i]? = some tok → headerOf tok = some t →
      (j + i, t) ∈ headerHitsFrom j l := by
  induction l with
  | nil =>
    intro j i tok t hget
    simp at hget
  | cons tk rest ih =>
    intro j i tok t hget hh
    cases i with
    | zero =>
      simp only [List.getElem?_cons_zero, Option.some_inj] at hget
      subst hget
      simp only [headerHitsFrom, hh]
      exact List.mem_cons_self _ _
    | succ i2 =>
      simp only [List.getElem?_cons_succ] at hget
      have hmem := ih (j + 1) i2 tok t hget hh
      have hidx : j + (i2 + 1) = (j + 1) + i2 := by omega
      rw [hidx]
      cases hh2 : headerOf tk with
      | none =>
        simp only [headerHitsFrom, hh2]
        exact hmem
      | some u =>
        simp only [headerHitsFrom, hh2]
        exact List.mem_cons_of_mem _ hmem

theorem extract_of_mem (doc : Doc) (s : SectionEntry) (hs : s ∈ section_segmenter doc) :
    extract_section_text doc s.title ≠ none := by
  unfold extract_section_text
  cases hf : (section_segmenter doc).find?
      (fun sec => strLower sec.title == strLower s.title) with
  | some sec => simp
  | none =>
    have hcontra := List.find?_eq_none.mp hf s hs
    simp at hcontra

/-- Claim C4 (amended): a sentence-initial line matching a recognized
header produces a section whose stored title is the stripped lowercased
sentence text with any trailing colon retained (not stripped), and the
lookup succeeds for that exact stored title; as the counterexample shows,
the colon-free name is not found when the header carried a colon. -/
theorem C4_title_keeps_colon (doc : Doc) (i : Nat) (tok : Token)
    (hget : doc.tokens[i]? = some tok) (t : String) (hh : headerOf tok = some t) :
    ∃ s ∈ section_segmenter doc, s.start = i ∧ s.title = t ∧
      extract_section_text doc s.title ≠ none := by
  have hmem : (i, t) ∈ headerHitsFrom 0 doc.tokens := by
    have h0 := headerHitsFrom_mem_of_get doc.tokens 0 i tok t hget hh
    simpa using h0
  have hmem2 : (i, t) ∈ (section_segmenter doc).map (fun s => (s.start, s.title)) := by
    unfold section_segmenter
    rw [closeSections_map]
    exact hmem
  rcases List.mem_map.mp hmem2 with ⟨s, hs, hst⟩
  refine ⟨s, hs, ?_, ?_, extract_of_mem doc s hs⟩
  · exact congrArg Prod.fst hst
  · exact congrArg Prod.snd hst

/-- Witness for C4: on the concrete `Medications:` note the produced
section starts at token 0, stores title `"medications:"` (colon retained),
and lookup by that stored title succeeds. -/
theorem C4_witness :
    ∃ s ∈ section_segmenter docMeds, s.start = 0 ∧ s.title = "medications:" ∧
      extract_section_text docMeds s.title ≠ none :=
  C4_title_keeps_colon docMeds 0
    { text := "Medications:", is_sent_start := true, sentText := "Medications:" }
    (by rfl) "medications:" (by decide)

/-! ## Pipeline Orchestrator (`ClinicalPhenotypingPipeline.run`)

```python
def run(self):
    notes = self.reader.read_notes()
    structured = self.reader.read_structured()
    phenotype_summaries = []
    for note in notes:
        doc = self.nlp.process_note(note['note_text'])
        detections = self.valence.detect(doc)
        pheno_scores = self.pheno.tag(detections)
        phenotype_summaries.append({'patient_id': note['patient_id'], **pheno_scores})
    self.writer.write(phenotype_summaries)
```

`NLPProcessor.process_note` simply applies the external spaCy model
(`self.nlp(note_text)`), so the Text Annotator is passed in as an opaque
function.  The structured tables do not influence the accumulated records;
the model returns the `phenotype_summaries` list handed to the writer.
-/

structure Note where
  patient_id : String
  note_text : String
  deriving DecidableEq, Repr

/-- One appended record `{'patient_id': ..., **pheno_scores}`. -/
structure ScoreRecord where
  patient_id : String
  scores : List (String × ℚ)
  deriving DecidableEq, Repr

namespace ClinicalPhenotypingPipeline

def run (annotate : String → Doc) (lexicon : List (String × Int))
    (rules : List (String × List String)) (notes : List Note) : List ScoreRecord :=
  notes.map (fun note =>
    let doc := annotate note.note_text
    let detections := ValenceDetector.detect lexicon doc
    let pheno_scores := PhenotypingEngine.tag rules detections
    { patient_id := note.patient_id, scores := pheno_scores })

end ClinicalPhenotypingPipeline

/-- Claim C3 (code bug, at the failing input): a blank note neither aborts
the run nor is dropped — exactly one record carrying its patient id is
appended — but, because `tag` omits zero-scored groups, that record holds
no phenotype entry at all (`scores = []`) instead of the claimed `0.0`
score for every rule-set group (here `INFECTION`). -/
theorem C3_blank_note (annotate : String → Doc)
    (h : annotate "" = { tokens := [], ents := [] }) :
    ClinicalPhenotypingPipeline.run annotate [("fever", 1)]
        [("INFECTION", ["fever", "cough"])]
        [{ patient_id := "p1", note_text := "" }]
      = [{ patient_id := "p1", scores := [] }] := by
  unfold ClinicalPhenotypingPipeline.run
  simp only [List.map_cons, List.map_nil, h]
  rfl

/-- Witness for C3: instantiating the annotator with the function sending
every text to the empty document. -/
theorem C3_witness :
    ClinicalPhenotypingPipeline.run (fun _ => { tokens := [], ents := [] })
        [("fever", 1)] [("INFECTION", ["fever", "cough"])]
        [{ patient_id := "p1", note_text := "" }]
      = [{ patient_id := "p1", scores := [] }] :=
  C3_blank_note (fun _ => { tokens := [], ents := [] }) rfl

/-! ## Sink (`DbWriter.write`)

```python
def write(self, data):
    if not data:
        raise ValueError("No data provided for writing.")
    try:
        df = pd.DataFrame(data)
        if df.empty:
            raise ValueError("DataFrame is empty after conversion from data.")
        if self.file_format == "csv":
            df.to_csv(self.output_path, index=self.index)
        else:
            raise NotImplementedError(...)
    except Exception as e:
        ...
        raise
```

`self.file_format` is `file_format.lower()` from the constructor.  A
DataFrame built from a non-empty list of dicts is empty exactly when its
column set is empty, i.e. when every dict has no key.  `destWritable`
abstracts whether `to_csv` succeeds on the output path.  A returned
`Except.error` models a raised (and re-raised) exception — nothing has
been written — while `Except.ok` carries the rows written.
-/

/-- A cell value of a record dict (`Union[str, float, int]`). -/
inductive Value where
  | str : String → Value
  | num : ℚ → Value
  deriving DecidableEq, Repr

/-- One record dict, keys in insertion order. -/
abbrev Record := List (String × Value)

/-- The exception kinds `DbWriter.write` can raise. -/
inductive PyError where
  | valueError : PyError
  | notImplementedError : PyError
  | ioError : PyError
  deriving DecidableEq, Repr

namespace DbWriter

def write (file_format : String) (destWritable : Bool) (data : List Record) :
    Except PyError (List Record) :=
  if data.isEmpty then Except.error PyError.valueError
  else if data.all (fun r => r.isEmpty) then Except.error PyError.valueError
  else if strLower file_format == "csv" then
    if destWritable then Except.ok data else Except.error PyError.ioError
  else Except.error PyError.notImplementedError

end DbWriter

/-- Claim C8 (counterexample): the claim says `write` raises only for an
empty record sequence or an unwritable destination, but a non-empty
sequence with a writable destination still raises when the file format is
not `csv`. -/
theorem C8_counterexample :
    DbWriter.write "json" true [[("patient_id", Value.str "p1")]]
      = Except.error PyError.notImplementedError := by rfl

/-- Claim C8 (amended): `write` raises exactly when the record sequence is
empty, or every record is field-less (the DataFrame converts to an empty
table), or the lowercased file format is not `csv`, or the destination
cannot be written; in particular every empty input sequence raises rather
than writing an empty output. -/
theorem C8_write_error_iff (fmt : String) (w : Bool) (data : List Record) :
    (∃ e, DbWriter.write fmt w data = Except.error e) ↔
      (data = [] ∨ (∀ r ∈ data, r = []) ∨ strLower fmt ≠ "csv" ∨ w = false) := by
  unfold DbWriter.write
  rcases data with _ | ⟨r0, rest⟩
  · simp
  · simp only [List.isEmpty_cons, Bool.false_eq_true, if_false]
    by_cases h2 : ((r0 :: rest).all fun r => r.isEmpty) = true
    · rw [if_pos h2]
      constructor
      · intro _
        refine Or.inr (Or.inl ?_)
        intro r hr
        exact List.isEmpty_iff.mp (List.all_eq_true.mp h2 r hr)
      · intro _
        exact ⟨PyError.valueError, rfl⟩
    · rw [if_neg h2]
      have hall : ¬ (∀ r ∈ r0 :: rest, r = []) := by
        intro hc
        exact h2 (List.all_eq_true.mpr (fun r hr => by rw [hc r hr]; rfl))
      by_cases h3 : (strLower fmt == "csv") = true
      · rw [if_pos h3]
        have hfmt : strLower fmt = "csv" := eq_of_beq h3
        cases w with
        | true =>
          simp only [if_pos]
          constructor
          · rintro ⟨e, he⟩
            simp at he
          · intro hor
            rcases hor with hc | hc | hc | hc
            · exact absurd hc (by simp)
            · exact absurd hc hall
            · exact absurd hfmt hc
            · exact absurd hc (by simp)
        | false =>
          simp only [Bool.false_eq_true, if_false]
          constructor
          · intro _
            exact Or.inr (Or.inr (Or.inr (by simp)))
          · intro _
            exact ⟨PyError.ioError, rfl⟩
      · rw [if_neg h3]
        constructor
        · intro _
          refine Or.inr (Or.inr (Or.inl ?_))
          intro hc
          exact h3 (by rw [hc]; rfl)
        · intro _
          exact ⟨PyError.notImplementedError, rfl⟩

/-- Witness for C8: the empty sequence raises even with csv format and a
writable destination. -/
theorem C8_witness :
    ∃ e, DbWriter.write "csv" true ([] : List Record) = Except.error e :=
  (C8_write_error_iff "csv" true []).mpr (Or.inl rfl)

/-- Claim C10 (counterexample): on the non-empty sequence holding one
field-less record and format `json`, `write` raises `ValueError` (the
empty-DataFrame check fires before the format check), not the
`NotImplementedError` the claim names. -/
theorem C10_counterexample :
    DbWriter.write "json" true [([] : Record)] = Except.error PyError.valueError ∧
    PyError.valueError ≠ PyError.notImplementedError := by
  constructor
  · rfl
  · decide

/-- Claim C10 (amended): for a non-empty record sequence in which at least
one record has a field, a file format other than `csv` (after the
constructor's lowercasing) makes `write` raise `NotImplementedError` —
never a successful write — regardless of the destination's writability. -/
theorem C10_not_implemented (fmt : String) (w : Bool) (data : List Record)
    (hne : data ≠ []) (hr : ∃ r ∈ data, r ≠ []) (hf : strLower fmt ≠ "csv") :
    DbWriter.write fmt w data = Except.error PyError.notImplementedError := by
  unfold DbWriter.write
  have h1 : data.isEmpty = false := by
    rcases data with _ | ⟨r0, rest⟩
    · exact absurd rfl hne
    · rfl
  have h2 : (data.all fun r => r.isEmpty) = false := by
    rcases hr with ⟨r, hrmem, hrne⟩
    cases hall : data.all (fun r => r.isEmpty) with
    | false => rfl
    | true => exact absurd (List.isEmpty_iff.mp (List.all_eq_true.mp hall r hrmem)) hrne
  have h3 : (strLower fmt == "csv") = false := beq_eq_false_iff_ne.mpr hf
  simp only [h1, h2, h3, Bool.false_eq_true, if_false]

/-- Witness for C10: a one-record non-empty input with format `json`. -/
theorem C10_witness :
    DbWriter.write "json" true [[("patient_id", Value.str "123")]]
      = Except.error PyError.notImplementedError :=
  C10_not_implemented "json" true [[("patient_id", Value.str "123")]]
    (by simp) ⟨[("patient_id", Value.str "123")], by simp, by simp⟩ (by decide)
